import Mathlib

/-!
Shallow embedding of the approximate-matching autocomplete core of
`src/src/App.jsx` (classes `TrieNode` and `Trie`, table `letterToPattern`):
a dictionary trie searched with an incrementally computed edit-distance
row, substitution cost = Hamming distance between width-6 binary patterns,
insertion/deletion cost = the trie's `deletionCost` field (3).

Patterns in the source are 6-character strings over `{'0','1'}`; here a
pattern is a `List Bool` with `true` for `'1'`, produced from the source's
string literals by `bitsOfString`.
-/

/-- A braille cell pattern: one boolean per dot position. In the source a
pattern is a width-6 binary string; `true` stands for the character `'1'`. -/
abbrev Pattern := List Bool

/-- Turn a binary string literal from the source table into a `Pattern`. -/
def bitsOfString (s : String) : Pattern :=
  s.data.map (fun c => c = '1')

/-- The `letterToPattern` table of `App.jsx` (lines 10-18): the codec from
dictionary symbols to width-6 patterns, undefined off the 26 letters. -/
def letterToPattern : Char → Option Pattern
  | 'a' => some (bitsOfString "100000")
  | 'b' => some (bitsOfString "110000")
  | 'c' => some (bitsOfString "100100")
  | 'd' => some (bitsOfString "100110")
  | 'e' => some (bitsOfString "100010")
  | 'f' => some (bitsOfString "110100")
  | 'g' => some (bitsOfString "110110")
  | 'h' => some (bitsOfString "110010")
  | 'i' => some (bitsOfString "010100")
  | 'j' => some (bitsOfString "010110")
  | 'k' => some (bitsOfString "101000")
  | 'l' => some (bitsOfString "111000")
  | 'm' => some (bitsOfString "101100")
  | 'n' => some (bitsOfString "101110")
  | 'o' => some (bitsOfString "101010")
  | 'p' => some (bitsOfString "111100")
  | 'q' => some (bitsOfString "111110")
  | 'r' => some (bitsOfString "111010")
  | 's' => some (bitsOfString "011100")
  | 't' => some (bitsOfString "011110")
  | 'u' => some (bitsOfString "101001")
  | 'v' => some (bitsOfString "111001")
  | 'w' => some (bitsOfString "010111")
  | 'x' => some (bitsOfString "101101")
  | 'y' => some (bitsOfString "101111")
  | 'z' => some (bitsOfString "101011")
  | _ => none

/-- Embeds `Trie._hammingDistance` (App.jsx lines 101-107): count the positions
`i = 0..5` where the two patterns differ; an out-of-range index reads as
`none` (JS `undefined`). -/
def hammingDistance (p1 p2 : Pattern) : Nat :=
  (List.range 6).countP (fun i => p1[i]? != p2[i]?)

/-- Embeds `TrieNode` (App.jsx lines 29-34): an insertion-ordered map from symbol
to child node, plus an end-of-word flag. JS objects keep string keys in
insertion order, so `children` is an association list. -/
inductive TrieNode where
  | mk (children : List (Char × TrieNode)) (isEnd : Bool)

/-- Children of a node. -/
def TrieNode.children : TrieNode → List (Char × TrieNode)
  | .mk ch _ => ch

/-- End-of-word flag of a node. -/
def TrieNode.isEnd : TrieNode → Bool
  | .mk _ e => e

/-- A freshly constructed `TrieNode`. -/
def TrieNode.empty : TrieNode := .mk [] false

/-- JS property read `node.children[char]`. -/
def lookupChild (ch : List (Char × TrieNode)) (c : Char) : Option TrieNode :=
  match ch with
  | [] => none
  | (c', t) :: rest => if c' = c then some t else lookupChild rest c

/-- JS property write `node.children[char] = t`: overwrite an existing key in
place, or append a new key at the end of the insertion order. -/
def setChild (ch : List (Char × TrieNode)) (c : Char) (t : TrieNode) :
    List (Char × TrieNode) :=
  match ch with
  | [] => [(c, t)]
  | (c', t') :: rest =>
    if c' = c then (c, t) :: rest else (c', t') :: setChild rest c t

/-- Embeds `Trie.insert` (App.jsx lines 43-52) from a given node downward: walk the
word, creating a fresh child wherever the symbol is absent, and mark the
final node as end-of-word. -/
def TrieNode.insertPath : TrieNode → List Char → TrieNode
  | node, [] => .mk node.children true
  | node, c :: cs =>
    let child := (lookupChild node.children c).getD TrieNode.empty
    .mk (setChild node.children c (child.insertPath cs)) node.isEnd

/-- A suggestion record `{word, cost}` pushed by `Trie._search`. -/
structure Suggestion where
  word : List Char
  cost : Nat
deriving DecidableEq, Repr

/-- The initial DP row of `Trie.search` (App.jsx line 59):
`Array(n+1).fill().map((_, i) => i * this.deletionCost)`. -/
def initialDp (dC n : Nat) : List Nat :=
  (List.range (n + 1)).map (fun i => i * dC)

/-- The inner loop of `Trie._search` (App.jsx lines 88-95): given the value
`prevNew = newDp[j-1]`, the value `prevOld = dp[j-1]`, the remaining old row
`dp[j..]` and the remaining query `inputPatterns[j-1..]`, produce
`newDp[j..]`. -/
def dpTail (dC : Nat) (pat : Pattern) (prevNew prevOld : Nat) :
    List Nat → List Pattern → List Nat
  | dj :: ds, q :: qs =>
    let v := min (dj + dC) (min (prevNew + dC) (prevOld + hammingDistance pat q))
    v :: dpTail dC pat v dj ds qs
  | _, _ => []

/-- The child DP row of `Trie._search` (App.jsx lines 86-95):
`newDp[0] = dp[0] + deletionCost`, then the loop `dpTail`. -/
def computeNewDp (dC : Nat) (pat : Pattern) (dp : List Nat)
    (inputs : List Pattern) : List Nat :=
  match dp with
  | [] => []
  | d0 :: rest => (d0 + dC) :: dpTail dC pat (d0 + dC) d0 rest inputs

/-- The list `dp.map((cost, j) => cost + deletionCost * (n - j))` of
App.jsx lines 75-77, with the running index `j` made explicit. -/
def totalCostList (dC n : Nat) : List Nat → Nat → List Nat
  | [], _ => []
  | c :: rest, j => (c + dC * (n - j)) :: totalCostList dC n rest (j + 1)

/-- Embeds `Math.min(...dp.map((cost, j) => cost + deletionCost * (n - j)))` of
App.jsx lines 75-77 (the `dp` rows reaching it are never empty). -/
def totalCost (dC n : Nat) (dp : List Nat) : Nat :=
  match totalCostList dC n dp 0 with
  | [] => 0
  | x :: xs => xs.foldl min x

mutual

/-- Embeds `Trie._search` (App.jsx lines 70-99): emit a record at an end-of-word
node, then traverse the children in insertion order. -/
def searchNode (dC : Nat) (inputs : List Pattern) :
    TrieNode → List Char → List Nat → List Suggestion
  | .mk children isEnd, w, dp =>
    (if isEnd then [⟨w, totalCost dC inputs.length dp⟩] else []) ++
      searchKids dC inputs children w dp

/-- The `for (const [char, childNode] of Object.entries(node.children))` loop
of `Trie._search` (App.jsx lines 82-98): skip symbols without a pattern,
otherwise recurse with the child DP row. -/
def searchKids (dC : Nat) (inputs : List Pattern) :
    List (Char × TrieNode) → List Char → List Nat → List Suggestion
  | [], _, _ => []
  | (c, child) :: rest, w, dp =>
    (match letterToPattern c with
     | none => []
     | some pat => searchNode dC inputs child (w ++ [c]) (computeNewDp dC pat dp inputs)) ++
      searchKids dC inputs rest w dp

end

/-- Stable insertion of a record into a cost-sorted list: the new record goes
before the first strictly more expensive record, hence after every record of
equal cost that was discovered earlier. -/
def insertByCost (s : Suggestion) : List Suggestion → List Suggestion
  | [] => [s]
  | t :: ts => if t.cost < s.cost then t :: insertByCost s ts else s :: t :: ts

/-- Embeds `suggestions.sort((a, b) => a.cost - b.cost)` of App.jsx line 66:
JS `Array.prototype.sort` is a stable sort, modelled by stable insertion
sort on the cost field. -/
def sortByCost : List Suggestion → List Suggestion
  | [] => []
  | s :: ss => insertByCost s (sortByCost ss)

/-- JS `l.slice(0, e)`: a negative end index counts back from the end of the
list, clamped at zero. -/
def sliceTo (e : Int) (l : List α) : List α :=
  if e < 0 then l.take ((l.length + e).toNat) else l.take e.toNat

/-- Embeds `Trie` (App.jsx lines 37-41): the root node and the constant
`deletionCost = 3`. -/
structure Trie where
  root : TrieNode
  deletionCost : Nat

/-- The `Trie` constructor (App.jsx lines 38-41). -/
def Trie.new : Trie := ⟨TrieNode.empty, 3⟩

/-- Embeds `Trie.insert` (App.jsx lines 43-52). -/
def Trie.insert (t : Trie) (w : List Char) : Trie :=
  ⟨t.root.insertPath w, t.deletionCost⟩

/-- The unsorted record list produced by the traversal of `Trie.search`
(App.jsx line 62). -/
def Trie.records (t : Trie) (inputs : List Pattern) : List Suggestion :=
  searchNode t.deletionCost inputs t.root [] (initialDp t.deletionCost inputs.length)

/-- Embeds `Trie.search` (App.jsx lines 54-68): empty query short-circuits to `[]`;
otherwise traverse from the root with the initial DP row, sort stably by
cost, and `slice(0, maxSuggestions)`. -/
def Trie.search (t : Trie) (inputs : List Pattern) (maxSuggestions : Int) :
    List Suggestion :=
  if inputs.length = 0 then []
  else sliceTo maxSuggestions (sortByCost (t.records inputs))

/-- Membership of a word in the trie: follow the child edges spelled by the
word and test the end-of-word flag. -/
def containsWord : TrieNode → List Char → Bool
  | node, [] => node.isEnd
  | node, c :: cs =>
    match lookupChild node.children c with
    | some child => containsWord child cs
    | none => false

/-- Membership as seen by `Trie._search`: like `containsWord`, but an edge
whose symbol has no pattern in the codec table blocks the walk (App.jsx
lines 83-84). -/
def containsDefined : TrieNode → List Char → Bool
  | node, [] => node.isEnd
  | node, c :: cs =>
    (letterToPattern c).isSome &&
      (match lookupChild node.children c with
       | some child => containsDefined child cs
       | none => false)

/-- The representation invariant of a JS object used as a map: its keys are
pairwise distinct. Holds for every trie reachable by `insert` from the
constructor. -/
inductive TrieNode.WF : TrieNode → Prop
  | mk (ch : List (Char × TrieNode)) (e : Bool)
      (hkeys : (ch.map Prod.fst).Nodup)
      (hch : ∀ p ∈ ch, WF p.2) : WF (.mk ch e)

/-- The word list used in §8 test properties. -/
def catWord : List Char := ['c', 'a', 't']

/-- The patterns of 'c', 'a', 't' (all defined in the codec). -/
def patC : Pattern := bitsOfString "100100"
def patA : Pattern := bitsOfString "100000"
def patT : Pattern := bitsOfString "011110"


/-! ### Lemmas about the stable sort -/

theorem insertByCost_perm (s : Suggestion) (l : List Suggestion) :
    (insertByCost s l).Perm (s :: l) := by
  induction l with
  | nil => simp [insertByCost]
  | cons t ts ih =>
    by_cases h : t.cost < s.cost
    · simpa [insertByCost, if_pos h] using (ih.cons t).trans (List.Perm.swap s t ts)
    · simp [insertByCost, if_neg h]

theorem sortByCost_perm (l : List Suggestion) : (sortByCost l).Perm l := by
  induction l with
  | nil => simp [sortByCost]
  | cons s ss ih => exact (insertByCost_perm s (sortByCost ss)).trans (ih.cons s)

theorem mem_insertByCost {x s : Suggestion} {l : List Suggestion} :
    x ∈ insertByCost s l ↔ x = s ∨ x ∈ l := by
  rw [(insertByCost_perm s l).mem_iff, List.mem_cons]

theorem sorted_insertByCost (s : Suggestion) (l : List Suggestion)
    (h : l.Pairwise (fun a b => a.cost ≤ b.cost)) :
    (insertByCost s l).Pairwise (fun a b => a.cost ≤ b.cost) := by
  induction l with
  | nil => simp [insertByCost]
  | cons t ts ih =>
    rcases List.pairwise_cons.1 h with ⟨ht, hts⟩
    by_cases hc : t.cost < s.cost
    · simp only [insertByCost, if_pos hc]
      refine List.pairwise_cons.2 ⟨?_, ih hts⟩
      intro x hx
      rcases mem_insertByCost.1 hx with rfl | hx'
      · exact Nat.le_of_lt hc
      · exact ht x hx'
    · simp only [insertByCost, if_neg hc]
      refine List.pairwise_cons.2 ⟨?_, h⟩
      intro x hx
      rcases List.mem_cons.1 hx with rfl | hx'
      · exact Nat.le_of_not_lt hc
      · exact Nat.le_trans (Nat.le_of_not_lt hc) (ht x hx')

theorem sorted_sortByCost (l : List Suggestion) :
    (sortByCost l).Pairwise (fun a b => a.cost ≤ b.cost) := by
  induction l with
  | nil => simp [sortByCost]
  | cons s ss ih => exact sorted_insertByCost s (sortByCost ss) ih

theorem filter_insertByCost (c : Nat) (s : Suggestion) (l : List Suggestion) :
    (insertByCost s l).filter (fun x => x.cost == c) =
      if s.cost = c then s :: l.filter (fun x => x.cost == c)
      else l.filter (fun x => x.cost == c) := by
  induction l with
  | nil =>
    by_cases h : s.cost = c <;> simp [insertByCost, h]
  | cons t ts ih =>
    by_cases hc : t.cost < s.cost
    · simp only [insertByCost, if_pos hc]
      by_cases hs : s.cost = c
      · have htc : ¬(t.cost = c) := by omega
        simp [List.filter_cons, htc, hs, ih]
      · simp only [List.filter_cons, ih, if_neg hs]
    · simp only [insertByCost, if_neg hc]
      by_cases hs : s.cost = c <;> simp [List.filter_cons, hs]

theorem filter_sortByCost (c : Nat) (l : List Suggestion) :
    (sortByCost l).filter (fun x => x.cost == c) =
      l.filter (fun x => x.cost == c) := by
  induction l with
  | nil => simp [sortByCost]
  | cons s ss ih =>
    by_cases hs : s.cost = c <;>
      simp [sortByCost, filter_insertByCost, hs, ih, List.filter_cons]

/-! ### Lemmas about the DP rows -/

theorem initialDp_length (dC n : Nat) : (initialDp dC n).length = n + 1 := by
  simp [initialDp]

theorem initialDp_getD (dC n j : Nat) (h : j ≤ n) :
    (initialDp dC n).getD j 0 = j * dC := by
  have hj : j < n + 1 := Nat.lt_succ_of_le h
  simp [initialDp, List.getD_eq_getElem?_getD, List.getElem?_map,
    List.getElem?_range hj]

theorem dpTail_length (dC : Nat) (pat : Pattern) :
    ∀ (ds : List Nat) (qs : List Pattern) (a b : Nat),
      ds.length = qs.length → (dpTail dC pat a b ds qs).length = ds.length := by
  intro ds
  induction ds with
  | nil => intro qs a b _; simp [dpTail]
  | cons d ds' ih =>
    intro qs a b hlen
    match qs with
    | [] => simp at hlen
    | q :: qs' =>
      have : ds'.length = qs'.length := by simpa using hlen
      simp [dpTail, ih qs' _ d this]

theorem dpTail_getD (dC : Nat) (pat : Pattern) :
    ∀ (j : Nat) (ds : List Nat) (qs : List Pattern) (a b : Nat),
      ds.length = qs.length → j < ds.length →
      (dpTail dC pat a b ds qs).getD j 0 =
        min (ds.getD j 0 + dC)
          (min ((if j = 0 then a else (dpTail dC pat a b ds qs).getD (j - 1) 0) + dC)
            ((if j = 0 then b else ds.getD (j - 1) 0) +
              hammingDistance pat (qs.getD j []))) := by
  intro j
  induction j with
  | zero =>
    intro ds qs a b hlen hj
    match ds, qs with
    | [], _ => simp at hj
    | d :: ds', [] => simp at hlen
    | d :: ds', q :: qs' => simp [dpTail]
  | succ j ih =>
    intro ds qs a b hlen hj
    match ds, qs with
    | [], _ => simp at hj
    | d :: ds', [] => simp at hlen
    | d :: ds', q :: qs' =>
      have hlen' : ds'.length = qs'.length := by simpa using hlen
      have hj' : j < ds'.length := by
        have := Nat.lt_of_succ_lt_succ (by simpa using hj)
        exact this
      have key := ih ds' qs'
        (min (d + dC) (min (a + dC) (b + hammingDistance pat q))) d hlen' hj'
      cases j with
      | zero => simpa [dpTail] using key
      | succ i => simpa [dpTail] using key

theorem computeNewDp_length (dC : Nat) (pat : Pattern) (dp : List Nat)
    (inputs : List Pattern) (hdp : dp.length = inputs.length + 1) :
    (computeNewDp dC pat dp inputs).length = dp.length := by
  match dp with
  | [] => simp at hdp
  | d0 :: rest =>
    have : rest.length = inputs.length := by simpa using hdp
    simp [computeNewDp, dpTail_length dC pat rest inputs _ d0 this]

theorem computeNewDp_getD_zero (dC : Nat) (pat : Pattern) (dp : List Nat)
    (inputs : List Pattern) (hne : dp ≠ []) :
    (computeNewDp dC pat dp inputs).getD 0 0 = dp.getD 0 0 + dC := by
  match dp with
  | [] => exact absurd rfl hne
  | d0 :: rest => simp [computeNewDp]

theorem computeNewDp_getD (dC : Nat) (pat : Pattern) (dp : List Nat)
    (inputs : List Pattern) (hdp : dp.length = inputs.length + 1)
    (j : Nat) (h1 : 1 ≤ j) (h2 : j ≤ inputs.length) :
    (computeNewDp dC pat dp inputs).getD j 0 =
      min (dp.getD j 0 + dC)
        (min ((computeNewDp dC pat dp inputs).getD (j - 1) 0 + dC)
          (dp.getD (j - 1) 0 + hammingDistance pat (inputs.getD (j - 1) []))) := by
  match dp with
  | [] => simp at hdp
  | d0 :: rest =>
    have hr : rest.length = inputs.length := by simpa using hdp
    have hj' : j - 1 < rest.length := by omega
    have key := dpTail_getD dC pat (j - 1) rest inputs (d0 + dC) d0 hr hj'
    obtain ⟨i, rfl⟩ : ∃ i, j = i + 1 := ⟨j - 1, by omega⟩
    cases i with
    | zero => simpa [computeNewDp] using key
    | succ m => simpa [computeNewDp] using key

/-! ### Lemmas about the end-of-word cost -/

theorem totalCostList_length (dC n : Nat) :
    ∀ (dp : List Nat) (j : Nat), (totalCostList dC n dp j).length = dp.length := by
  intro dp
  induction dp with
  | nil => intro j; simp [totalCostList]
  | cons c rest ih => intro j; simp [totalCostList, ih (j + 1)]

theorem mem_totalCostList (dC n : Nat) :
    ∀ (dp : List Nat) (j0 x : Nat),
      x ∈ totalCostList dC n dp j0 ↔
        ∃ i, i < dp.length ∧ x = dp.getD i 0 + dC * (n - (j0 + i)) := by
  intro dp
  induction dp with
  | nil => intro j0 x; simp [totalCostList]
  | cons c rest ih =>
    intro j0 x
    simp only [totalCostList, List.mem_cons, ih (j0 + 1)]
    constructor
    · rintro (rfl | ⟨i, hi, rfl⟩)
      · exact ⟨0, by simp, by simp⟩
      · refine ⟨i + 1, by simpa using hi, ?_⟩
        simp [List.getD_cons_succ]
        omega
    · rintro ⟨i, hi, rfl⟩
      cases i with
      | zero => left; simp
      | succ k =>
        right
        refine ⟨k, by simpa using hi, ?_⟩
        simp [List.getD_cons_succ]
        omega

theorem foldl_min_le_init : ∀ (xs : List Nat) (x : Nat), xs.foldl min x ≤ x := by
  intro xs
  induction xs with
  | nil => intro x; simp
  | cons y ys ih =>
    intro x
    calc ys.foldl min (min x y) ≤ min x y := ih (min x y)
    _ ≤ x := Nat.min_le_left x y

theorem foldl_min_le_mem :
    ∀ (xs : List Nat) (x y : Nat), y ∈ xs → xs.foldl min x ≤ y := by
  intro xs
  induction xs with
  | nil => intro x y h; simp at h
  | cons z zs ih =>
    intro x y h
    rcases List.mem_cons.1 h with rfl | h'
    · calc zs.foldl min (min x y) ≤ min x y := foldl_min_le_init zs _
      _ ≤ y := Nat.min_le_right x y
    · exact ih (min x z) y h'

theorem foldl_min_eq_init_or_mem :
    ∀ (xs : List Nat) (x : Nat), xs.foldl min x = x ∨ xs.foldl min x ∈ xs := by
  intro xs
  induction xs with
  | nil => intro x; simp
  | cons y ys ih =>
    intro x
    rcases ih (min x y) with h | h
    · rcases Nat.le_total x y with hxy | hyx
      · left; simp only [List.foldl_cons, h]; exact Nat.min_eq_left hxy
      · right; simp only [List.foldl_cons, h, List.mem_cons]
        left; exact Nat.min_eq_right hyx
    · right
      simp only [List.foldl_cons]
      exact List.mem_cons_of_mem y h

theorem foldl_min_le_cons (x : Nat) (xs : List Nat) :
    ∀ y ∈ x :: xs, xs.foldl min x ≤ y := by
  intro y hy
  rcases List.mem_cons.1 hy with rfl | h
  · exact foldl_min_le_init xs y
  · exact foldl_min_le_mem xs x y h

theorem totalCost_le (dC n : Nat) (dp : List Nat) (hne : dp ≠ [])
    (j : Nat) (hj : j < dp.length) :
    totalCost dC n dp ≤ dp.getD j 0 + dC * (n - j) := by
  cases dp with
  | nil => exact absurd rfl hne
  | cons c rest =>
    have hmem : (c :: rest).getD j 0 + dC * (n - j) ∈ totalCostList dC n (c :: rest) 0 :=
      (mem_totalCostList dC n (c :: rest) 0 _).2 ⟨j, hj, by simp⟩
    rw [totalCost]
    simp only [totalCostList] at hmem ⊢
    exact foldl_min_le_cons _ _ _ hmem

theorem totalCost_eq_mem (dC n : Nat) (dp : List Nat) (hne : dp ≠ []) :
    ∃ j, j < dp.length ∧ totalCost dC n dp = dp.getD j 0 + dC * (n - j) := by
  cases dp with
  | nil => exact absurd rfl hne
  | cons c rest =>
    have hv : totalCost dC n (c :: rest) ∈ totalCostList dC n (c :: rest) 0 := by
      rw [totalCost]
      simp only [totalCostList]
      rcases foldl_min_eq_init_or_mem (totalCostList dC n rest 1) (c + dC * (n - 0)) with h | h
      · rw [h]; exact List.mem_cons_self _ _
      · exact List.mem_cons_of_mem _ h
    rcases (mem_totalCostList dC n (c :: rest) 0 _).1 hv with ⟨i, hi, he⟩
    exact ⟨i, hi, by simpa using he⟩

/-! ### Unfolding equations for the traversal -/

theorem searchNode_eq (dC : Nat) (inputs : List Pattern)
    (ch : List (Char × TrieNode)) (e : Bool) (w : List Char) (dp : List Nat) :
    searchNode dC inputs (.mk ch e) w dp =
      (if e then [⟨w, totalCost dC inputs.length dp⟩] else []) ++
        searchKids dC inputs ch w dp := by
  rw [searchNode]

theorem searchKids_nil (dC : Nat) (inputs : List Pattern)
    (w : List Char) (dp : List Nat) :
    searchKids dC inputs [] w dp = [] := by
  rw [searchKids]

theorem searchKids_cons (dC : Nat) (inputs : List Pattern) (c : Char)
    (child : TrieNode) (rest : List (Char × TrieNode)) (w : List Char)
    (dp : List Nat) :
    searchKids dC inputs ((c, child) :: rest) w dp =
      (match letterToPattern c with
       | none => []
       | some pat =>
         searchNode dC inputs child (w ++ [c]) (computeNewDp dC pat dp inputs)) ++
        searchKids dC inputs rest w dp := by
  rw [searchKids]

theorem searchKids_cons_undef (dC : Nat) (inputs : List Pattern) (c : Char)
    (child : TrieNode) (rest : List (Char × TrieNode)) (w : List Char)
    (dp : List Nat) (h : letterToPattern c = none) :
    searchKids dC inputs ((c, child) :: rest) w dp =
      searchKids dC inputs rest w dp := by
  rw [searchKids_cons, h]
  simp

theorem searchKids_cons_def (dC : Nat) (inputs : List Pattern) (c : Char)
    (child : TrieNode) (rest : List (Char × TrieNode)) (w : List Char)
    (dp : List Nat) (pat : Pattern) (h : letterToPattern c = some pat) :
    searchKids dC inputs ((c, child) :: rest) w dp =
      searchNode dC inputs child (w ++ [c]) (computeNewDp dC pat dp inputs) ++
        searchKids dC inputs rest w dp := by
  rw [searchKids_cons, h]

/-! ### Shape of the emitted records -/

theorem shape_node (dC : Nat) (inputs : List Pattern) :
    ∀ (node : TrieNode) (w : List Char) (dp : List Nat),
      ∀ s ∈ searchNode dC inputs node w dp,
        ∃ p, s.word = w ++ p ∧ ∀ c ∈ p, (letterToPattern c).isSome = true := by
  refine searchNode.induct dC inputs
    (fun node w dp => ∀ s ∈ searchNode dC inputs node w dp,
      ∃ p, s.word = w ++ p ∧ ∀ c ∈ p, (letterToPattern c).isSome = true)
    (fun ch w dp => ∀ s ∈ searchKids dC inputs ch w dp,
      ∃ c p, (letterToPattern c).isSome = true ∧ s.word = w ++ c :: p ∧
        ∀ x ∈ p, (letterToPattern x).isSome = true)
    ?_ ?_ ?_
  · intro ch e w dp ih2 s hs
    rw [searchNode_eq] at hs
    rcases List.mem_append.1 hs with hs1 | hs2
    · cases e with
      | false => simp at hs1
      | true =>
        simp only [if_pos] at hs1
        rcases List.mem_singleton.1 hs1 with rfl
        exact ⟨[], by simp, by simp⟩
    · rcases ih2 s hs2 with ⟨c, p, hcs, hw, hp⟩
      refine ⟨c :: p, hw, ?_⟩
      intro x hx
      rcases List.mem_cons.1 hx with rfl | h
      · exact hcs
      · exact hp x h
  · intro w dp s hs
    rw [searchKids_nil] at hs
    simp at hs
  · intro c child rest w dp ih1 ih2 s hs
    rw [searchKids_cons] at hs
    rcases List.mem_append.1 hs with hs1 | hs2
    · cases hlc : letterToPattern c with
      | none => rw [hlc] at hs1; simp at hs1
      | some pat =>
        rw [hlc] at hs1
        rcases ih1 pat s hs1 with ⟨p, hw, hp⟩
        refine ⟨c, p, by simp [hlc], ?_, hp⟩
        simpa [List.append_assoc] using hw
    · rcases ih2 s hs2 with ⟨c', p, hcs, hw, hp⟩
      exact ⟨c', p, hcs, hw, hp⟩

theorem shape_kids (dC : Nat) (inputs : List Pattern) :
    ∀ (ch : List (Char × TrieNode)) (w : List Char) (dp : List Nat),
      ∀ s ∈ searchKids dC inputs ch w dp,
        ∃ c child p, (c, child) ∈ ch ∧ (letterToPattern c).isSome = true ∧
          s.word = w ++ c :: p := by
  intro ch
  induction ch with
  | nil =>
    intro w dp s hs
    rw [searchKids_nil] at hs
    simp at hs
  | cons pair rest ih =>
    rcases pair with ⟨c, child⟩
    intro w dp s hs
    rw [searchKids_cons] at hs
    rcases List.mem_append.1 hs with hs1 | hs2
    · cases hlc : letterToPattern c with
      | none => rw [hlc] at hs1; simp at hs1
      | some pat =>
        rw [hlc] at hs1
        rcases shape_node dC inputs child (w ++ [c]) _ s hs1 with ⟨p, hw, _⟩
        refine ⟨c, child, p, by simp, by simp [hlc], ?_⟩
        simpa [List.append_assoc] using hw
    · rcases ih w dp s hs2 with ⟨c', child', p, hmem, hcs, hw⟩
      exact ⟨c', child', p, List.mem_cons_of_mem _ hmem, hcs, hw⟩

/-! ### Lemmas about the children map and `insert` -/

theorem lookupChild_setChild_self (ch : List (Char × TrieNode)) (c : Char)
    (t : TrieNode) : lookupChild (setChild ch c t) c = some t := by
  induction ch with
  | nil => simp [setChild, lookupChild]
  | cons pair rest ih =>
    rcases pair with ⟨c', t'⟩
    by_cases h : c' = c
    · simp [setChild, lookupChild, h]
    · simp [setChild, lookupChild, h, ih]

theorem lookupChild_setChild_ne (ch : List (Char × TrieNode)) (c c' : Char)
    (t : TrieNode) (h : c' ≠ c) :
    lookupChild (setChild ch c t) c' = lookupChild ch c' := by
  have hcc : ¬(c = c') := fun hh => h hh.symm
  induction ch with
  | nil => simp [setChild, lookupChild, hcc]
  | cons pair rest ih =>
    rcases pair with ⟨c'', t''⟩
    by_cases h2 : c'' = c
    · subst h2
      simp [setChild, lookupChild, hcc]
    · simp only [setChild, if_neg h2, lookupChild]
      by_cases h3 : c'' = c' <;> simp [h3, ih]

theorem setChild_setChild (ch : List (Char × TrieNode)) (c : Char)
    (t t' : TrieNode) : setChild (setChild ch c t) c t' = setChild ch c t' := by
  induction ch with
  | nil => simp [setChild]
  | cons pair rest ih =>
    rcases pair with ⟨c'', t''⟩
    by_cases h : c'' = c
    · simp [setChild, h]
    · simp [setChild, h, ih]

theorem map_fst_setChild (ch : List (Char × TrieNode)) (c : Char) (t : TrieNode) :
    (setChild ch c t).map Prod.fst =
      if c ∈ ch.map Prod.fst then ch.map Prod.fst else ch.map Prod.fst ++ [c] := by
  induction ch with
  | nil => simp [setChild]
  | cons pair rest ih =>
    rcases pair with ⟨c'', t''⟩
    by_cases h : c'' = c
    · subst h
      simp [setChild]
    · have hne : ¬(c = c'') := fun hh => h hh.symm
      by_cases h2 : c ∈ rest.map Prod.fst <;>
        simp [setChild, h, hne, h2, ih]

theorem mem_setChild (ch : List (Char × TrieNode)) (c : Char) (t : TrieNode) :
    ∀ pair ∈ setChild ch c t, pair = (c, t) ∨ pair ∈ ch := by
  induction ch with
  | nil => intro pair h; simp [setChild] at h; simp [h]
  | cons q rest ih =>
    rcases q with ⟨c'', t''⟩
    intro pair h
    by_cases hc : c'' = c
    · rw [setChild, if_pos hc] at h
      rcases List.mem_cons.1 h with rfl | h2
      · exact Or.inl rfl
      · exact Or.inr (List.mem_cons_of_mem _ h2)
    · rw [setChild, if_neg hc] at h
      rcases List.mem_cons.1 h with rfl | h2
      · exact Or.inr (List.mem_cons_self _ _)
      · rcases ih pair h2 with h3 | h3
        · exact Or.inl h3
        · exact Or.inr (List.mem_cons_of_mem _ h3)

theorem lookupChild_mem (ch : List (Char × TrieNode)) (c : Char) (t : TrieNode)
    (h : lookupChild ch c = some t) : (c, t) ∈ ch := by
  induction ch with
  | nil => simp [lookupChild] at h
  | cons pair rest ih =>
    rcases pair with ⟨c', t'⟩
    by_cases hc : c' = c
    · rw [lookupChild, if_pos hc] at h
      rcases Option.some.inj h
      subst hc
      exact List.mem_cons_self _ _
    · rw [lookupChild, if_neg hc] at h
      exact List.mem_cons_of_mem _ (ih h)

theorem lookupChild_of_nodup (ch : List (Char × TrieNode)) (c : Char) (t : TrieNode)
    (hnd : (ch.map Prod.fst).Nodup) (hm : (c, t) ∈ ch) :
    lookupChild ch c = some t := by
  induction ch with
  | nil => simp at hm
  | cons pair rest ih =>
    rcases pair with ⟨c', t'⟩
    rcases List.mem_cons.1 hm with heq | h2
    · injection heq with h1 h2
      subst h1
      subst h2
      simp [lookupChild]
    · have hc : c' ≠ c := by
        intro hh
        subst hh
        have : c' ∈ rest.map Prod.fst := List.mem_map.2 ⟨(c', t), h2, rfl⟩
        exact (List.nodup_cons.1 (by simpa using hnd)).1 this
      rw [lookupChild, if_neg hc]
      exact ih (List.nodup_cons.1 (by simpa using hnd)).2 h2

/-! ### The invariant and `insert` -/

theorem WF_empty : TrieNode.WF TrieNode.empty :=
  TrieNode.WF.mk [] false (by simp) (by simp)

theorem WF_keys {ch : List (Char × TrieNode)} {e : Bool}
    (h : TrieNode.WF (.mk ch e)) : (ch.map Prod.fst).Nodup := by
  cases h with
  | mk _ _ hkeys _ => exact hkeys

theorem WF_child {ch : List (Char × TrieNode)} {e : Bool}
    (h : TrieNode.WF (.mk ch e)) : ∀ p ∈ ch, TrieNode.WF p.2 := by
  cases h with
  | mk _ _ _ hch => exact hch

theorem WF_insertPath : ∀ (w : List Char) (node : TrieNode),
    TrieNode.WF node → TrieNode.WF (node.insertPath w) := by
  intro w
  induction w with
  | nil =>
    intro node h
    cases node with
    | mk ch e =>
      exact TrieNode.WF.mk ch true (WF_keys h) (WF_child h)
  | cons c cs ih =>
    intro node h
    cases node with
    | mk ch e =>
      rw [TrieNode.insertPath]
      have hchild : TrieNode.WF ((lookupChild (TrieNode.mk ch e).children c).getD TrieNode.empty) := by
        cases hl : lookupChild (TrieNode.mk ch e).children c with
        | none => exact WF_empty
        | some t =>
          have := lookupChild_mem _ _ _ hl
          exact WF_child h (c, t) (by simpa [TrieNode.children] using this)
      refine TrieNode.WF.mk _ _ ?_ ?_
      · rw [map_fst_setChild]
        by_cases hc : c ∈ ch.map Prod.fst
        · simpa [TrieNode.children, hc] using WF_keys h
        · simp only [TrieNode.children, if_neg hc]
          simp [List.nodup_append, WF_keys h, hc]
      · intro pair hp
        rcases mem_setChild _ _ _ pair (by simpa [TrieNode.children] using hp) with rfl | hmem
        · exact ih _ hchild
        · exact WF_child h pair hmem

theorem WF_foldl_insert (ws : List (List Char)) :
    ∀ t : Trie, TrieNode.WF t.root → TrieNode.WF ((ws.foldl Trie.insert t).root) := by
  induction ws with
  | nil => intro t h; simpa using h
  | cons w ws' ih =>
    intro t h
    simpa using ih (t.insert w) (WF_insertPath w t.root h)

theorem insertPath_idem : ∀ (w : List Char) (node : TrieNode),
    (node.insertPath w).insertPath w = node.insertPath w := by
  intro w
  induction w with
  | nil =>
    intro node
    rw [TrieNode.insertPath, TrieNode.insertPath]
    rfl
  | cons c cs ih =>
    intro node
    conv_lhs => rw [TrieNode.insertPath]
    rw [TrieNode.insertPath]
    simp only [TrieNode.children, TrieNode.isEnd, lookupChild_setChild_self,
      Option.getD_some, setChild_setChild, ih]

/-! ### Membership in the trie -/

theorem containsWord_empty (v : List Char) :
    containsWord TrieNode.empty v = false := by
  cases v with
  | nil => rfl
  | cons c cs => rfl

theorem containsWord_insertPath : ∀ (w v : List Char) (node : TrieNode),
    containsWord (node.insertPath w) v = true ↔
      v = w ∨ containsWord node v = true := by
  intro w
  induction w with
  | nil =>
    intro v node
    cases node with
    | mk ch e =>
      cases v with
      | nil => simp [TrieNode.insertPath, containsWord, TrieNode.isEnd, TrieNode.children]
      | cons c cs =>
        rw [TrieNode.insertPath]
        simp only [containsWord, TrieNode.children]
        constructor
        · intro h; exact Or.inr h
        · rintro (h | h)
          · simp at h
          · exact h
  | cons a as ih =>
    intro v node
    cases node with
    | mk ch e =>
      rw [TrieNode.insertPath]
      cases v with
      | nil =>
        simp only [containsWord, TrieNode.isEnd]
        constructor
        · intro h; exact Or.inr h
        · rintro (h | h)
          · simp at h
          · exact h
      | cons c cs =>
        by_cases hca : c = a
        · subst hca
          simp only [containsWord, TrieNode.children, lookupChild_setChild_self]
          rw [ih cs]
          cases hl : lookupChild ch c with
          | none =>
            simp only [hl, Option.getD_none]
            rw [containsWord_empty]
            simp
          | some t =>
            simp only [hl, Option.getD_some]
            simp
        · have hac : ¬(a = c) := fun hh => hca hh.symm
          simp only [containsWord, TrieNode.children,
            lookupChild_setChild_ne ch a c _ hca]
          have hne : ¬(c :: cs = a :: as) := by simp [hca]
          cases hl : lookupChild ch c with
          | none => simp [hne]
          | some t => simp [hne]

theorem containsDefined_eq : ∀ (v : List Char) (node : TrieNode),
    containsDefined node v =
      (containsWord node v && v.all (fun c => (letterToPattern c).isSome)) := by
  intro v
  induction v with
  | nil => intro node; simp [containsDefined, containsWord]
  | cons c cs ih =>
    intro node
    rw [containsDefined, containsWord]
    cases hl : lookupChild node.children c with
    | none => cases hs : (letterToPattern c).isSome <;> simp [hs]
    | some t =>
      cases hs : (letterToPattern c).isSome <;>
        simp [hs, ih t, Bool.and_comm, Bool.and_assoc, Bool.and_left_comm]

theorem containsWord_foldl_insert (ws : List (List Char)) :
    ∀ (t : Trie) (v : List Char),
      containsWord (ws.foldl Trie.insert t).root v = true ↔
        v ∈ ws ∨ containsWord t.root v = true := by
  induction ws with
  | nil => intro t v; simp
  | cons w ws' ih =>
    intro t v
    rw [List.foldl_cons, ih (t.insert w) v]
    have : containsWord (t.insert w).root v = true ↔
        v = w ∨ containsWord t.root v = true :=
      containsWord_insertPath w v t.root
    rw [this, List.mem_cons]
    tauto

/-! ### What the traversal emits -/

theorem word_shape_of_mem (dC : Nat) (inputs : List Pattern) :
    ∀ (node : TrieNode) (w0 : List Char) (dp : List Nat),
      TrieNode.WF node →
      ∀ s ∈ searchNode dC inputs node w0 dp,
        ∃ p, s.word = w0 ++ p ∧ containsDefined node p = true := by
  refine searchNode.induct dC inputs
    (fun node w0 dp => TrieNode.WF node →
      ∀ s ∈ searchNode dC inputs node w0 dp,
        ∃ p, s.word = w0 ++ p ∧ containsDefined node p = true)
    (fun ch w0 dp => (ch.map Prod.fst).Nodup → (∀ q ∈ ch, TrieNode.WF q.2) →
      ∀ s ∈ searchKids dC inputs ch w0 dp,
        ∃ c child p, (c, child) ∈ ch ∧ (letterToPattern c).isSome = true ∧
          s.word = w0 ++ c :: p ∧ containsDefined child p = true)
    ?_ ?_ ?_
  · intro ch e w dp ih2 hwf s hs
    rw [searchNode_eq] at hs
    rcases List.mem_append.1 hs with hs1 | hs2
    · cases e with
      | false => simp at hs1
      | true =>
        simp only [if_pos] at hs1
        rcases List.mem_singleton.1 hs1 with rfl
        exact ⟨[], by simp, by simp [containsDefined, TrieNode.isEnd]⟩
    · rcases ih2 (WF_keys hwf) (WF_child hwf) s hs2 with
        ⟨c, child, p, hmem, hsome, hw, hcd⟩
      refine ⟨c :: p, hw, ?_⟩
      rw [containsDefined]
      have hl : lookupChild (TrieNode.mk ch e).children c = some child := by
        simpa [TrieNode.children] using
          lookupChild_of_nodup ch c child (WF_keys hwf) hmem
      rw [hl]
      simp [hsome, hcd]
  · intro w dp _ _ s hs
    rw [searchKids_nil] at hs
    simp at hs
  · intro c child rest w dp ih1 ih2 hnd hwf s hs
    rw [searchKids_cons] at hs
    rcases List.mem_append.1 hs with hs1 | hs2
    · cases hlc : letterToPattern c with
      | none => rw [hlc] at hs1; simp at hs1
      | some pat =>
        rw [hlc] at hs1
        have hwfc : TrieNode.WF child := hwf (c, child) (List.mem_cons_self _ _)
        rcases ih1 pat hwfc s hs1 with ⟨p, hw, hcd⟩
        refine ⟨c, child, p, List.mem_cons_self _ _, by simp [hlc], ?_, hcd⟩
        simpa [List.append_assoc] using hw
    · have hnd' : (rest.map Prod.fst).Nodup :=
        (List.nodup_cons.1 (by simpa using hnd)).2
      rcases ih2 hnd' (fun q hq => hwf q (List.mem_cons_of_mem _ hq)) s hs2 with
        ⟨c', child', p, hmem, hsome, hw, hcd⟩
      exact ⟨c', child', p, List.mem_cons_of_mem _ hmem, hsome, hw, hcd⟩

theorem mem_searchKids_of_lookup (dC : Nat) (inputs : List Pattern) :
    ∀ (ch : List (Char × TrieNode)) (c : Char) (child : TrieNode) (pat : Pattern)
      (w0 : List Char) (dp : List Nat) (x : Suggestion),
      lookupChild ch c = some child → letterToPattern c = some pat →
      x ∈ searchNode dC inputs child (w0 ++ [c]) (computeNewDp dC pat dp inputs) →
      x ∈ searchKids dC inputs ch w0 dp := by
  intro ch
  induction ch with
  | nil =>
    intro c child pat w0 dp x hl _ _
    simp [lookupChild] at hl
  | cons pair rest ih =>
    rcases pair with ⟨c', t'⟩
    intro c child pat w0 dp x hl hpat hx
    by_cases hc : c' = c
    · subst hc
      rw [lookupChild, if_pos rfl] at hl
      rcases Option.some.inj hl
      rw [searchKids_cons_def dC inputs c' t' rest w0 dp pat hpat]
      exact List.mem_append_left _ hx
    · rw [lookupChild, if_neg hc] at hl
      rw [searchKids_cons]
      exact List.mem_append_right _ (ih c child pat w0 dp x hl hpat hx)

theorem mem_searchNode_of_containsDefined (dC : Nat) (inputs : List Pattern) :
    ∀ (p : List Char) (node : TrieNode) (w0 : List Char) (dp : List Nat),
      containsDefined node p = true →
      ∃ s ∈ searchNode dC inputs node w0 dp, s.word = w0 ++ p := by
  intro p
  induction p with
  | nil =>
    intro node w0 dp hcd
    cases node with
    | mk ch e =>
      have he : e = true := by simpa [containsDefined, TrieNode.isEnd] using hcd
      subst he
      refine ⟨⟨w0, totalCost dC inputs.length dp⟩, ?_, by simp⟩
      rw [searchNode_eq]
      exact List.mem_append_left _ (by simp)
  | cons c cs ih =>
    intro node w0 dp hcd
    rw [containsDefined, Bool.and_eq_true] at hcd
    rcases hcd with ⟨hsome, hrest⟩
    cases hlp : letterToPattern c with
    | none => rw [hlp] at hsome; simp at hsome
    | some pat =>
      cases hl : lookupChild node.children c with
      | none => rw [hl] at hrest; simp at hrest
      | some child =>
        rw [hl] at hrest
        rcases ih child (w0 ++ [c]) (computeNewDp dC pat dp inputs) hrest with
          ⟨s, hs, hw⟩
        refine ⟨s, ?_, by simpa [List.append_assoc] using hw⟩
        cases node with
        | mk ch e =>
          rw [searchNode_eq]
          refine List.mem_append_right _ ?_
          exact mem_searchKids_of_lookup dC inputs ch c child pat w0 dp s
            (by simpa [TrieNode.children] using hl) hlp hs

theorem nodup_words_searchNode (dC : Nat) (inputs : List Pattern) :
    ∀ (node : TrieNode) (w0 : List Char) (dp : List Nat),
      TrieNode.WF node →
      ((searchNode dC inputs node w0 dp).map Suggestion.word).Nodup := by
  refine searchNode.induct dC inputs
    (fun node w0 dp => TrieNode.WF node →
      ((searchNode dC inputs node w0 dp).map Suggestion.word).Nodup)
    (fun ch w0 dp => (ch.map Prod.fst).Nodup → (∀ q ∈ ch, TrieNode.WF q.2) →
      ((searchKids dC inputs ch w0 dp).map Suggestion.word).Nodup)
    ?_ ?_ ?_
  · intro ch e w dp ih2 hwf
    rw [searchNode_eq, List.map_append]
    rw [List.nodup_append]
    refine ⟨?_, ih2 (WF_keys hwf) (WF_child hwf), ?_⟩
    · cases e <;> simp
    · intro x hx hx2
      rcases List.mem_map.1 hx2 with ⟨s, hs, hw⟩
      rcases shape_kids dC inputs ch w dp s hs with ⟨c, child, p, _, _, hshape⟩
      cases e with
      | false => simp at hx
      | true =>
        have hxw : x = w := by simpa using hx
        rw [hxw] at hw
        rw [hshape] at hw
        simp at hw
  · intro w dp _ _
    rw [searchKids_nil]
    simp
  · intro c child rest w dp ih1 ih2 hnd hwf
    rw [searchKids_cons, List.map_append, List.nodup_append]
    have hnd' : (rest.map Prod.fst).Nodup :=
      (List.nodup_cons.1 (by simpa using hnd)).2
    have hcnotin : c ∉ rest.map Prod.fst :=
      (List.nodup_cons.1 (by simpa using hnd)).1
    refine ⟨?_, ih2 hnd' (fun q hq => hwf q (List.mem_cons_of_mem _ hq)), ?_⟩
    · cases hlc : letterToPattern c with
      | none => simp
      | some pat =>
        simpa using ih1 pat (hwf (c, child) (List.mem_cons_self _ _))
    · intro x hx hx2
      cases hlc : letterToPattern c with
      | none => rw [hlc] at hx; simp at hx
      | some pat =>
        rw [hlc] at hx
        rcases List.mem_map.1 hx with ⟨s, hs, hws⟩
        rcases shape_node dC inputs child (w ++ [c]) _ s hs with ⟨p, hsp, _⟩
        rcases List.mem_map.1 hx2 with ⟨s', hs', hws'⟩
        rcases shape_kids dC inputs rest w dp s' hs' with
          ⟨c', child', p', hmem', _, hsp'⟩
        have : w ++ c :: p = w ++ c' :: p' := by
          calc w ++ c :: p = (w ++ [c]) ++ p := by simp
          _ = s.word := hsp.symm
          _ = x := hws
          _ = s'.word := hws'.symm
          _ = w ++ c' :: p' := hsp'
        have hcc : c = c' := by
          have := List.append_cancel_left this
          exact (List.cons.injEq .. ▸ this).1
        apply hcnotin
        rw [hcc]
        exact List.mem_map.2 ⟨(c', child'), hmem', rfl⟩

/-! ### Lemmas about truncation -/

theorem sliceTo_sublist (e : Int) (l : List α) : (sliceTo e l).Sublist l := by
  rw [sliceTo]
  split <;> exact List.take_sublist _ _

theorem mem_of_mem_sliceTo {e : Int} {l : List α} {x : α}
    (h : x ∈ sliceTo e l) : x ∈ l :=
  (sliceTo_sublist e l).subset h

theorem sliceTo_of_length_le (e : Int) (l : List α)
    (h : (l.length : Int) ≤ e) : sliceTo e l = l := by
  rw [sliceTo, if_neg (by omega)]
  exact List.take_of_length_le (by omega)

theorem sortByCost_length (l : List Suggestion) :
    (sortByCost l).length = l.length :=
  (sortByCost_perm l).length_eq

theorem count_eq_of_perm {α : Type} [BEq α] {l1 l2 : List α}
    (h : l1.Perm l2) (a : α) : l1.count a = l2.count a := by
  unfold List.count
  exact h.countP_eq _

theorem count_le_one_of_nodup {α : Type} [BEq α] [LawfulBEq α] {l : List α}
    (h : l.Nodup) (a : α) : l.count a ≤ 1 := by
  induction l with
  | nil => simp
  | cons x xs ih =>
    rcases List.nodup_cons.1 h with ⟨hx, hxs⟩
    rw [List.count_cons]
    by_cases hxa : (x == a) = true
    · have hxa' : x = a := by simpa using hxa
      subst hxa'
      have h0 : List.count x xs = 0 := List.count_eq_zero.2 hx
      simp [h0, hxa]
    · simp [hxa, ih hxs]

/-! ### The claims -/

/-- C1: for a query of `n` patterns, the traversal starts at the root with
the row `[0, 3, 6, ..., n * 3]` (`deletionCost = 3`); each child edge with a
defined pattern recurses with the row `computeNewDp` of the parent's row,
which satisfies `newDp[0] = dp[0] + 3` and, for `j = 1..n`,
`newDp[j] = min (dp[j] + 3) (min (newDp[j-1] + 3) (dp[j-1] + hamming))`. -/
theorem C1_dp_rows :
    (∀ (t : Trie) (inputs : List Pattern),
      t.records inputs =
        searchNode t.deletionCost inputs t.root []
          (initialDp t.deletionCost inputs.length)) ∧
    (∀ n : Nat, (initialDp 3 n).length = n + 1 ∧
      ∀ j, j ≤ n → (initialDp 3 n).getD j 0 = j * 3) ∧
    (∀ (inputs : List Pattern) (c : Char) (pat : Pattern) (child : TrieNode)
      (rest : List (Char × TrieNode)) (w : List Char) (dp : List Nat),
      letterToPattern c = some pat →
      searchKids 3 inputs ((c, child) :: rest) w dp =
        searchNode 3 inputs child (w ++ [c]) (computeNewDp 3 pat dp inputs) ++
          searchKids 3 inputs rest w dp) ∧
    (∀ (inputs : List Pattern) (pat : Pattern) (dp : List Nat),
      dp.length = inputs.length + 1 →
      (computeNewDp 3 pat dp inputs).length = inputs.length + 1 ∧
      (computeNewDp 3 pat dp inputs).getD 0 0 = dp.getD 0 0 + 3 ∧
      ∀ j, 1 ≤ j → j ≤ inputs.length →
        (computeNewDp 3 pat dp inputs).getD j 0 =
          min (dp.getD j 0 + 3)
            (min ((computeNewDp 3 pat dp inputs).getD (j - 1) 0 + 3)
              (dp.getD (j - 1) 0 +
                hammingDistance pat (inputs.getD (j - 1) [])))) := by
  refine ⟨fun t inputs => rfl, ?_, ?_, ?_⟩
  · intro n
    exact ⟨initialDp_length 3 n, fun j hj => initialDp_getD 3 n j hj⟩
  · intro inputs c pat child rest w dp h
    exact searchKids_cons_def 3 inputs c child rest w dp pat h
  · intro inputs pat dp hdp
    have hne : dp ≠ [] := by
      intro h
      rw [h] at hdp
      simp at hdp
    exact ⟨(computeNewDp_length 3 pat dp inputs hdp).trans hdp,
      computeNewDp_getD_zero 3 pat dp inputs hne,
      fun j h1 h2 => computeNewDp_getD 3 pat dp inputs hdp j h1 h2⟩

/-- Witness for C1 at `n = 1`, one child edge `'a'` and the row `[0, 3]`. -/
theorem C1_dp_rows_witness :
    (initialDp 3 1).getD 1 0 = 1 * 3 ∧
    searchKids 3 [patA] [('a', TrieNode.empty)] [] [0, 3] =
      searchNode 3 [patA] TrieNode.empty ([] ++ ['a'])
          (computeNewDp 3 patA [0, 3] [patA]) ++
        searchKids 3 [patA] [] [] [0, 3] ∧
    (computeNewDp 3 patC [0, 3] [patA]).getD 1 0 =
      min ([0, 3].getD 1 0 + 3)
        (min ((computeNewDp 3 patC [0, 3] [patA]).getD 0 0 + 3)
          ([0, 3].getD 0 0 + hammingDistance patC ([patA].getD 0 []))) :=
  ⟨(C1_dp_rows.2.1 1).2 1 (by decide),
   C1_dp_rows.2.2.1 [patA] 'a' patA TrieNode.empty [] [] [0, 3] (by decide),
   (C1_dp_rows.2.2.2 [patA] patC [0, 3] (by decide)).2.2 1 (by decide) (by decide)⟩

/-- C2: at an end-of-word node (and only there) the traversal emits the
record `(word-so-far, totalCost)`, and `totalCost` is exactly the minimum
over `j = 0..n` of `dp[j] + deletionCost * (n - j)`. -/
theorem C2_end_emission (dC : Nat) (inputs : List Pattern)
    (ch : List (Char × TrieNode)) (e : Bool) (w : List Char) (dp : List Nat)
    (hdp : dp.length = inputs.length + 1) :
    searchNode dC inputs (.mk ch e) w dp =
      (if e then [⟨w, totalCost dC inputs.length dp⟩] else []) ++
        searchKids dC inputs ch w dp ∧
    (∀ j, j ≤ inputs.length →
      totalCost dC inputs.length dp ≤ dp.getD j 0 + dC * (inputs.length - j)) ∧
    ∃ j, j ≤ inputs.length ∧
      totalCost dC inputs.length dp = dp.getD j 0 + dC * (inputs.length - j) := by
  have hne : dp ≠ [] := by
    intro h
    rw [h] at hdp
    simp at hdp
  refine ⟨searchNode_eq dC inputs ch e w dp, ?_, ?_⟩
  · intro j hj
    exact totalCost_le dC inputs.length dp hne j (by omega)
  · rcases totalCost_eq_mem dC inputs.length dp hne with ⟨j, hj, he⟩
    exact ⟨j, by omega, he⟩

/-- Witness for C2 at a lone end-of-word root with the row `[0, 3]`. -/
theorem C2_end_emission_witness :
    searchNode 3 [patA] (.mk [] true) [] [0, 3] =
      (if true then [⟨[], totalCost 3 [patA].length [0, 3]⟩] else []) ++
        searchKids 3 [patA] [] [] [0, 3] ∧
    (∀ j, j ≤ [patA].length →
      totalCost 3 [patA].length [0, 3] ≤
        [0, 3].getD j 0 + 3 * ([patA].length - j)) ∧
    ∃ j, j ≤ [patA].length ∧
      totalCost 3 [patA].length [0, 3] =
        [0, 3].getD j 0 + 3 * ([patA].length - j) :=
  C2_end_emission 3 [patA] [] true [] [0, 3] (by decide)

/-- C3: with dictionary `{"cat"}` and the query `c, a, t` followed by any
fourth width-6 pattern, the top suggestion is `("cat", 3)`. -/
theorem C3_trailing_insertion (a b c d e f : Bool) :
    ((Trie.new.insert catWord).search
        [patC, patA, patT, [a, b, c, d, e, f]] 5).head? =
      some ⟨catWord, 3⟩ := by
  revert a b c d e f
  decide

/-- C4: with dictionary `{"cat"}` and exactly the query `c, a, t`, search
returns the single record `("cat", 0)`. -/
theorem C4_exact_match :
    (Trie.new.insert catWord).search [patC, patA, patT] 5 = [⟨catWord, 0⟩] := by
  decide

/-- C5: for `maxSuggestions = k ≥ 0` the result has length at most `k`, is
sorted non-decreasing by cost, is a prefix (a `take`) of the full sorted
record list, and the stable sort keeps records of equal cost in the order
the depth-first traversal emitted them. -/
theorem C5_ranking_truncation (t : Trie) (inputs : List Pattern) (k : Int)
    (hk : 0 ≤ k) :
    (t.search inputs k).length ≤ k.toNat ∧
    (t.search inputs k).Pairwise (fun a b => a.cost ≤ b.cost) ∧
    (∃ m, t.search inputs k = (sortByCost (t.records inputs)).take m) ∧
    ∀ c : Nat,
      (sortByCost (t.records inputs)).filter (fun x => x.cost == c) =
        (t.records inputs).filter (fun x => x.cost == c) := by
  refine ⟨?_, ?_, ?_, fun c => filter_sortByCost c (t.records inputs)⟩
  · rw [Trie.search]
    split
    · simp
    · rw [sliceTo, if_neg (by omega)]
      exact (List.length_take _ _).trans_le (Nat.min_le_left _ _)
  · rw [Trie.search]
    split
    · simp
    · exact (sorted_sortByCost _).sublist (sliceTo_sublist _ _)
  · rw [Trie.search]
    split
    · exact ⟨0, by simp⟩
    · rw [sliceTo, if_neg (by omega)]
      exact ⟨k.toNat, rfl⟩

/-- Witness for C5 with dictionary `{"cat"}`, the exact query and `k = 1`. -/
theorem C5_ranking_truncation_witness :
    ((Trie.new.insert catWord).search [patC, patA, patT] 1).length ≤
      (1 : Int).toNat ∧
    ((Trie.new.insert catWord).search [patC, patA, patT] 1).Pairwise
      (fun a b => a.cost ≤ b.cost) ∧
    (∃ m, (Trie.new.insert catWord).search [patC, patA, patT] 1 =
      (sortByCost ((Trie.new.insert catWord).records [patC, patA, patT])).take m) ∧
    ∀ c : Nat,
      (sortByCost ((Trie.new.insert catWord).records [patC, patA, patT])).filter
          (fun x => x.cost == c) =
        ((Trie.new.insert catWord).records [patC, patA, patT]).filter
          (fun x => x.cost == c) :=
  C5_ranking_truncation (Trie.new.insert catWord) [patC, patA, patT] 1
    (by decide)

/-- C6 as stated is false: with dictionary `{"a", "b"}`, the one-pattern
query `'a'` and `maxSuggestions = -1`, JS `slice(0, -1)` drops only the last
record, so the result is nonempty. -/
theorem C6_negative_counterexample :
    ((Trie.new.insert ['a']).insert ['b']).search [patA] (-1) ≠ [] := by
  decide

/-- C6 amended: an empty query or `maxSuggestions = 0` yields `[]`, while a
negative `maxSuggestions = k` keeps the sorted records except the last `-k`
of them (JS `slice(0, k)`), which is empty only when `-k` is at least the
number of records. -/
theorem C6_nonpositive_amended (t : Trie) (inputs : List Pattern) (k : Int)
    (hk : k ≤ 0) :
    t.search inputs k =
      if inputs.length = 0 ∨ k = 0 then []
      else (sortByCost (t.records inputs)).take
        (((sortByCost (t.records inputs)).length : Int) + k).toNat := by
  rw [Trie.search]
  by_cases hin : inputs.length = 0
  · simp [hin]
  · rw [if_neg hin]
    by_cases hk0 : k = 0
    · subst hk0
      rw [if_pos (Or.inr rfl), sliceTo]
      simp
    · rw [if_neg (by tauto), sliceTo, if_pos (by omega)]

/-- Witness for C6 amended: dictionary `{"a", "b"}`, query `'a'`,
`maxSuggestions = -1` keeps the cheaper of the two records. -/
theorem C6_nonpositive_amended_witness :
    ((Trie.new.insert ['a']).insert ['b']).search [patA] (-1) =
      if ([patA] : List Pattern).length = 0 ∨ (-1 : Int) = 0 then []
      else (sortByCost (((Trie.new.insert ['a']).insert ['b']).records
          [patA])).take
        (((sortByCost (((Trie.new.insert ['a']).insert ['b']).records
          [patA])).length : Int) + (-1)).toNat :=
  C6_nonpositive_amended ((Trie.new.insert ['a']).insert ['b']) [patA] (-1)
    (by decide)

/-- C7: an edge whose symbol has no pattern is skipped together with its
whole subtree, and consequently every word in any search result consists
only of symbols with a defined pattern. -/
theorem C7_unknown_symbol_pruning :
    (∀ (dC : Nat) (inputs : List Pattern) (c : Char) (child : TrieNode)
      (rest : List (Char × TrieNode)) (w : List Char) (dp : List Nat),
      letterToPattern c = none →
      searchKids dC inputs ((c, child) :: rest) w dp =
        searchKids dC inputs rest w dp) ∧
    (∀ (t : Trie) (inputs : List Pattern) (k : Int) (s : Suggestion),
      s ∈ t.search inputs k →
      ∀ c ∈ s.word, (letterToPattern c).isSome = true) := by
  refine ⟨fun dC inputs c child rest w dp h =>
    searchKids_cons_undef dC inputs c child rest w dp h, ?_⟩
  intro t inputs k s hs c hc
  rw [Trie.search] at hs
  split at hs
  · simp at hs
  · have hrec : s ∈ t.records inputs :=
      (sortByCost_perm _).mem_iff.1 (mem_of_mem_sliceTo hs)
    rcases shape_node t.deletionCost inputs t.root [] _ s hrec with ⟨p, hw, hp⟩
    apply hp
    rw [hw] at hc
    simpa using hc

/-- Witness for C7: the undefined symbol `'1'` is skipped, and the record
`("cat", 0)` of the exact-match query uses only defined symbols. -/
theorem C7_unknown_symbol_pruning_witness :
    searchKids 3 [patA] [('1', TrieNode.empty)] [] [0, 3] =
      searchKids 3 [patA] [] [] [0, 3] ∧
    ∀ c ∈ (Suggestion.mk catWord 0).word, (letterToPattern c).isSome = true :=
  ⟨C7_unknown_symbol_pruning.1 3 [patA] '1' TrieNode.empty [] [] [0, 3]
      (by decide),
   C7_unknown_symbol_pruning.2 (Trie.new.insert catWord) [patC, patA, patT] 5
      ⟨catWord, 0⟩ (by decide)⟩

/-- C8: `insert` is idempotent — inserting a word twice produces the same
trie as inserting it once, hence identical search results — and under the
key-uniqueness invariant a word occurs at most once in any search result. -/
theorem C8_insert_idempotent (t : Trie) (w : List Char)
    (hwf : TrieNode.WF t.root) :
    (t.insert w).insert w = t.insert w ∧
    (∀ (inputs : List Pattern) (k : Int),
      ((t.insert w).insert w).search inputs k = (t.insert w).search inputs k) ∧
    ∀ (inputs : List Pattern) (k : Int),
      (((t.insert w).search inputs k).map Suggestion.word).count w ≤ 1 := by
  have hidem : (t.insert w).insert w = t.insert w := by
    show Trie.mk ((t.root.insertPath w).insertPath w) t.deletionCost =
      Trie.mk (t.root.insertPath w) t.deletionCost
    rw [insertPath_idem w t.root]
  refine ⟨hidem, fun inputs k => by rw [hidem], ?_⟩
  intro inputs k
  have hwf' : TrieNode.WF (t.insert w).root := WF_insertPath w t.root hwf
  rw [Trie.search]
  split
  · simp
  · have hnd : (((t.insert w).records inputs).map Suggestion.word).Nodup :=
      nodup_words_searchNode (t.insert w).deletionCost inputs
        (t.insert w).root [] (initialDp (t.insert w).deletionCost inputs.length)
        hwf'
    have h1 := List.Sublist.count_le
      ((sliceTo_sublist k (sortByCost ((t.insert w).records inputs))).map
        Suggestion.word) w
    have h2 := count_eq_of_perm
      (List.Perm.map Suggestion.word
        (sortByCost_perm ((t.insert w).records inputs))) w
    have h3 := count_le_one_of_nodup hnd w
    omega

/-- Witness for C8 starting from the freshly constructed empty trie. -/
theorem C8_insert_idempotent_witness :
    (Trie.new.insert catWord).insert catWord = Trie.new.insert catWord ∧
    (∀ (inputs : List Pattern) (k : Int),
      ((Trie.new.insert catWord).insert catWord).search inputs k =
        (Trie.new.insert catWord).search inputs k) ∧
    ∀ (inputs : List Pattern) (k : Int),
      (((Trie.new.insert catWord).search inputs k).map
        Suggestion.word).count catWord ≤ 1 :=
  C8_insert_idempotent Trie.new catWord WF_empty

/-- C9 as stated is false: inserting the empty word marks the root as
end-of-word, which is observable — a later one-pattern search reports the
empty word, which the untouched trie does not. -/
theorem C9_empty_insert_counterexample :
    (Trie.new.insert []).search [patA] 5 ≠ Trie.new.search [patA] 5 := by
  decide

/-- C9 amended: inserting the empty word creates no node and raises no
error, but sets the root's end-of-word flag; the trie is unchanged exactly
when the root was already marked. -/
theorem C9_empty_insert_amended (t : Trie) :
    (t.insert []).root.children = t.root.children ∧
    (t.insert []).root.isEnd = true ∧
    (t.insert []).deletionCost = t.deletionCost ∧
    (t.root.isEnd = true → t.insert [] = t) := by
  refine ⟨rfl, rfl, rfl, ?_⟩
  intro he
  cases t with
  | mk root dC =>
    cases root with
    | mk ch e =>
      have : e = true := by simpa [TrieNode.isEnd] using he
      subst this
      rfl

/-- Witness for C9 amended: re-inserting the empty word after it has been
inserted once is a no-op. -/
theorem C9_empty_insert_amended_witness :
    (Trie.new.insert []).root.isEnd = true ∧
    (Trie.new.insert []).insert [] = Trie.new.insert [] :=
  ⟨rfl, (C9_empty_insert_amended (Trie.new.insert [])).2.2.2 rfl⟩

/-- C10: over a trie built by a sequence of inserts, a non-empty query and a
`maxSuggestions` at least the number of records, the words in the result are
exactly the inserted words all of whose symbols have a pattern, each
occurring exactly once. -/
theorem C10_search_sound_complete (ws : List (List Char))
    (inputs : List Pattern) (k : Int) (hne : inputs ≠ [])
    (hk : (((ws.foldl Trie.insert Trie.new).records inputs).length : Int) ≤ k) :
    (∀ w : List Char,
      w ∈ ((ws.foldl Trie.insert Trie.new).search inputs k).map
          Suggestion.word ↔
        (w ∈ ws ∧ ∀ c ∈ w, (letterToPattern c).isSome = true)) ∧
    ∀ w : List Char, w ∈ ws → (∀ c ∈ w, (letterToPattern c).isSome = true) →
      (((ws.foldl Trie.insert Trie.new).search inputs k).map
        Suggestion.word).count w = 1 := by
  have hwf : TrieNode.WF (ws.foldl Trie.insert Trie.new).root :=
    WF_foldl_insert ws Trie.new WF_empty
  have hsearch : (ws.foldl Trie.insert Trie.new).search inputs k =
      sortByCost ((ws.foldl Trie.insert Trie.new).records inputs) := by
    rw [Trie.search,
      if_neg (by simpa [List.length_eq_zero] using hne)]
    exact sliceTo_of_length_le k _ (by rw [sortByCost_length]; exact hk)
  have hmem : ∀ w : List Char,
      w ∈ (((ws.foldl Trie.insert Trie.new).records inputs).map
          Suggestion.word) ↔
        containsDefined (ws.foldl Trie.insert Trie.new).root w = true := by
    intro w
    constructor
    · intro hw
      rcases List.mem_map.1 hw with ⟨s, hs, hws⟩
      rcases word_shape_of_mem (ws.foldl Trie.insert Trie.new).deletionCost
          inputs (ws.foldl Trie.insert Trie.new).root [] _ hwf s hs with
        ⟨p, hp, hcd⟩
      rw [← hws, hp]
      simpa using hcd
    · intro hcd
      rcases mem_searchNode_of_containsDefined
          (ws.foldl Trie.insert Trie.new).deletionCost inputs w
          (ws.foldl Trie.insert Trie.new).root []
          (initialDp (ws.foldl Trie.insert Trie.new).deletionCost
            inputs.length) hcd with ⟨s, hs, hws⟩
      exact List.mem_map.2 ⟨s, hs, by simpa using hws⟩
  have hchar : ∀ w : List Char,
      containsDefined (ws.foldl Trie.insert Trie.new).root w = true ↔
        (w ∈ ws ∧ ∀ c ∈ w, (letterToPattern c).isSome = true) := by
    intro w
    rw [containsDefined_eq, Bool.and_eq_true, List.all_eq_true]
    constructor
    · rintro ⟨h1, h2⟩
      rcases (containsWord_foldl_insert ws Trie.new w).1 h1 with h | h
      · exact ⟨h, h2⟩
      · have h0 : containsWord Trie.new.root w = false := containsWord_empty w
        rw [h0] at h
        simp at h
    · rintro ⟨h1, h2⟩
      exact ⟨(containsWord_foldl_insert ws Trie.new w).2 (Or.inl h1), h2⟩
  constructor
  · intro w
    rw [hsearch,
      (List.Perm.map Suggestion.word (sortByCost_perm _)).mem_iff,
      hmem w, hchar w]
  · intro w hw1 hw2
    rw [hsearch,
      count_eq_of_perm (List.Perm.map Suggestion.word (sortByCost_perm _)) w]
    have hnd : (((ws.foldl Trie.insert Trie.new).records inputs).map
        Suggestion.word).Nodup :=
      nodup_words_searchNode (ws.foldl Trie.insert Trie.new).deletionCost
        inputs (ws.foldl Trie.insert Trie.new).root []
        (initialDp (ws.foldl Trie.insert Trie.new).deletionCost inputs.length)
        hwf
    have hmem1 : w ∈ (((ws.foldl Trie.insert Trie.new).records inputs).map
        Suggestion.word) := (hmem w).2 ((hchar w).2 ⟨hw1, hw2⟩)
    have hpos := List.count_pos_iff.2 hmem1
    have hle := count_le_one_of_nodup hnd w
    omega

/-- Witness for C10 with dictionary `["cat"]`, the exact query and `k = 5`. -/
theorem C10_search_sound_complete_witness :
    catWord ∈ (([catWord].foldl Trie.insert Trie.new).search
        [patC, patA, patT] 5).map Suggestion.word ∧
    ((([catWord].foldl Trie.insert Trie.new).search
        [patC, patA, patT] 5).map Suggestion.word).count catWord = 1 :=
  ⟨((C10_search_sound_complete [catWord] [patC, patA, patT] 5 (by decide)
      (by decide)).1 catWord).2 ⟨by decide, by decide⟩,
   (C10_search_sound_complete [catWord] [patC, patA, patT] 5 (by decide)
      (by decide)).2 catWord (by decide) (by decide)⟩
